import Mathlib

/-!
Verification development for the grafana-slack-alerter webhook server.

The Go sources are shallowly embedded as executable Lean definitions:

* Go maps (`map[string]string`) are modelled as association lists
  `List (String × String)` carrying one concrete enumeration order; JSON
  decoding guarantees the keys are distinct, which appears as a `Nodup`
  hypothesis where it matters.  Go map iteration order is unspecified;
  every theorem below about grouped output is invariant under the order of
  the groups, and the one place where enumeration order leaks into output
  (the label hash) is analysed explicitly.
* `time.Time` is modelled by its Unix second count together with its
  `IsZero` flag, the only two observations the program makes.
* The process-wide command line flags are modelled as an explicit
  `Config` record passed to the functions that read them.
* Stateful code is modelled by explicit state passing: the in-place
  rewrite of a shared label map performed during rendering is exposed by
  `buildMessagesFinalBatch`, which returns the batch as the caller sees it
  after `buildMessages` returns.
* `float64` arithmetic inside `humanize` is modelled with exact rational
  arithmetic (see `GoFloat`); every concrete input used in a theorem is
  chosen so that the IEEE-754 evaluation agrees with the exact one on the
  4-significant-digit output.
-/

/-! ## Slack block model (the subset of slack-go used by the program) -/

/-- Model of `slack.TextBlockObject`: a typed text fragment. -/
structure TextObj where
  typ : String
  text : String
  emoji : Bool
  verbatim : Bool
deriving DecidableEq

/-- Model of `slack.ButtonBlockElement` as configured by the program:
action id, caption, target URL and style. -/
structure Button where
  actionId : String
  caption : TextObj
  url : String
  style : String
deriving DecidableEq

/-- Model of the Slack content blocks the program emits. -/
inductive Block where
  | header (text : TextObj)
  | section (text : Option TextObj) (fields : List TextObj)
  | divider
  | actions (blockId : String) (elements : List Button)
  | context (blockId : String) (elements : List TextObj)
deriving DecidableEq

/-- Model of `slack.WebhookMessage` (the fields the program sets). -/
structure WebhookMessage where
  Username : String
  Channel : String
  Text : String
  Blocks : List Block
deriving DecidableEq

/-! ## Inbound data model (`GrafanaMsg`, `Alert`) -/

/-- Model of `time.Time` by the two observations the program makes:
`Unix()` and `IsZero()`. -/
structure GoTime where
  unixSec : Int
  isZero : Bool
deriving DecidableEq

/-- Model of the `Alert` struct of `main.go`.  The Go maps `Labels` and
`Annotations` are association lists in one concrete enumeration order. -/
structure Alert where
  Status : String
  Labels : List (String × String)
  Annotations : List (String × String)
  StartsAt : GoTime
  EndsAt : GoTime
  GeneratorURL : String
  Fingerprint : String
  SilenceURL : String
  DashboardURL : String
  PanelURL : String
  ValueString : String
deriving DecidableEq

/-- Model of the `GrafanaMsg` struct of `main.go` (fields unused by the
transform are kept for shape fidelity). -/
structure GrafanaMsg where
  Receiver : String := ""
  Status : String := ""
  Alerts : List Alert := []
  ExternalURL : String := ""
  Version : String := ""
  GroupKey : String := ""
  TruncatedAlerts : Nat := 0
  OrgID : Int := 0
deriving DecidableEq

/-- Model of the process-wide command line flags of `main.go`, passed
explicitly.  `parseG0Expr` models the composition of
`url.ParseRequestURI` and `Query().Get` on the generator URL used for the
Explore button: `none` models a parse error. -/
structure Config where
  username : String
  grafanaAlertSource : Bool
  grafanaUrl : String
  disableGrafanaSilenceButton : Bool
  parseG0Expr : String → Option String

/-! ## Association list utilities (Go map reads) -/

/-- Go map lookup `m[k]` paired with the `ok` flag. -/
def assocFind (k : String) : List (String × β) → Option β
  | [] => none
  | e :: rest => if e.1 = k then some e.2 else assocFind k rest

/-- Go map read `m[k]` without the `ok` flag: missing keys give `""`. -/
def assocGet (k : String) (m : List (String × String)) : String :=
  (assocFind k m).getD ""

/-! ## chunkBy (main.go lines 303-308)

The Go loop `for chunkSize < len(items) { items, chunks = items[chunkSize:],
append(chunks, items[0:chunkSize:chunkSize]) }; return append(chunks, items)`
is embedded with explicit fuel so that it stays structurally recursive and
kernel-evaluable; fuel `items.length` is enough for every positive chunk
size (each iteration removes `chunkSize ≥ 1` items). -/
def chunkByAux (k : Nat) : Nat → List α → List (List α)
  | 0, l => [l]
  | fuel + 1, l => if k < l.length then l.take k :: chunkByAux k fuel (l.drop k) else [l]

/-- Model of `chunkBy` of `main.go`: split into chunks of `k`, the final
chunk possibly shorter; `chunkBy [] k = [[]]` exactly as in Go. -/
def chunkBy (l : List α) (k : Nat) : List (List α) :=
  chunkByAux k l.length l

/-! ## groupByStatus (main.go lines 241-251)

The Go function builds `map[string][]Alert`; the model keeps the groups as
an association list in first-seen key order (one concrete representative
of the unspecified Go map order; every claim proved about the groups is
invariant under permuting them). -/

/-- One step of the grouping loop body: append to an existing status group
or create a new singleton group. -/
def insertAlert (acc : List (String × List Alert)) (a : Alert) : List (String × List Alert) :=
  if (acc.map Prod.fst).contains a.Status then
    acc.map (fun e => if e.1 = a.Status then (e.1, e.2 ++ [a]) else e)
  else
    acc ++ [(a.Status, [a])]

/-- Model of `groupByStatus` of `main.go`. -/
def groupByStatus (msg : GrafanaMsg) : List (String × List Alert) :=
  msg.Alerts.foldl insertAlert []

/-! ## String utilities (models of the `strings` stdlib calls)

Split and occurrence counting work on `List Char` with explicit fuel so
that they stay structurally recursive and kernel-evaluable; fuel equal to
the list length is enough because every recursive call strictly shrinks
the list (the separators used are nonempty). -/

/-- Model of `strings.Split` (nonempty separator): scan left to right,
cutting at each non-overlapping occurrence of `sep`. -/
def splitGo (sep : List Char) : Nat → List Char → List (List Char)
  | 0, l => [l]
  | fuel + 1, l =>
    match l with
    | [] => [[]]
    | c :: rest =>
      if sep.isPrefixOf (c :: rest) then
        [] :: splitGo sep fuel ((c :: rest).drop sep.length)
      else
        match splitGo sep fuel rest with
        | [] => [[c]]
        | h :: t => (c :: h) :: t

/-- Number of non-overlapping occurrences of `sep`, same scan as `splitGo`. -/
def occGo (sep : List Char) : Nat → List Char → Nat
  | 0, _ => 0
  | fuel + 1, l =>
    match l with
    | [] => 0
    | c :: rest =>
      if sep.isPrefixOf (c :: rest) then
        1 + occGo sep fuel ((c :: rest).drop sep.length)
      else
        occGo sep fuel rest

/-- Tail after the first occurrence of `sep`, `none` when `sep` is absent. -/
def afterFirst (sep : List Char) : List Char → Option (List Char)
  | [] => none
  | c :: rest =>
    if sep.isPrefixOf (c :: rest) then some ((c :: rest).drop sep.length)
    else afterFirst sep rest

/-- Characters before the first occurrence of `sep` (whole list if absent). -/
def beforeFirst (sep : List Char) : List Char → List Char
  | [] => []
  | c :: rest =>
    if sep.isPrefixOf (c :: rest) then []
    else c :: beforeFirst sep rest

/-- String-level wrapper of `splitGo`. -/
def goSplit (s sep : String) : List (List Char) :=
  splitGo sep.data s.data.length s.data

/-- String-level non-overlapping occurrence count. -/
def occurrences (s sep : String) : Nat :=
  occGo sep.data s.data.length s.data

/-- Model of `strings.Join`. -/
def joinWith (sep : List Char) : List (List Char) → List Char
  | [] => []
  | [l] => l
  | l :: rest => l ++ sep ++ joinWith sep rest

/-- Model of `strings.ReplaceAll` (nonempty pattern), via split and join. -/
def replaceAll (s pat rep : String) : String :=
  String.mk (joinWith rep.data (goSplit s pat))

/-- Model of `strings.TrimSuffix`. -/
def trimSuffix (s suffix : String) : String :=
  if suffix.data.isSuffixOf s.data then
    String.mk (s.data.take (s.data.length - suffix.data.length))
  else s

/-! ## FNV-1a hashing (main.go lines 310-318) -/

/-- UTF-8 encoding of one character, as byte values. -/
def utf8EncodeChar (c : Char) : List Nat :=
  let n := c.toNat
  if n < 128 then [n]
  else if n < 2048 then [192 + n / 64, 128 + n % 64]
  else if n < 65536 then [224 + n / 4096, 128 + n / 64 % 64, 128 + n % 64]
  else [240 + n / 262144, 128 + n / 4096 % 64, 128 + n / 64 % 64, 128 + n % 64]

/-- Byte sequence of a string (Go `[]byte(s)`). -/
def utf8Bytes (s : String) : List Nat :=
  s.data.flatMap utf8EncodeChar

/-- Model of `hash/fnv` `New32a` + `Write` + `Sum32`: 32-bit FNV-1a. -/
def fnv32a (bytes : List Nat) : Nat :=
  bytes.foldl (fun h b => ((h ^^^ b) * 16777619) % 4294967296) 2166136261

/-- Model of `hash` of `main.go`: concatenate every `name + value` pair of
the label map in enumeration order, FNV-1a the bytes, print in decimal.
The concatenation order is the map iteration order, which Go does not
specify — the order-dependence of the result is proved below. -/
def labelsHash (items : List (String × String)) : String :=
  toString (fnv32a (utf8Bytes (items.foldl (fun acc e => acc ++ e.1 ++ e.2) "")))

/-! ## humanize (main.go lines 273-301)

`humanize` parses its argument with `strconv.ParseFloat` and works on
`float64`.  The model uses exact rational arithmetic: `GoFloat` carries
NaN, signed infinity, or an exact rational value (negative zero is not
tracked).  Parsing a decimal literal yields its exact rational value
instead of the nearest binary64; every concrete input appearing in a
theorem below is chosen so that the IEEE-754 computation is either exact
(value and intermediates representable in binary64) or agrees with the
exact one after rounding to 4 significant digits. -/

/-- Exact-rational idealization of a Go `float64` value. -/
inductive GoFloat where
  | nan
  | inf (neg : Bool)
  | num (q : Rat)
deriving DecidableEq

/-- Numeric value of a digit list, most significant first. -/
def digitsToNat (ds : List Char) : Nat :=
  ds.foldl (fun acc c => acc * 10 + (c.toNat - 48)) 0

/-- Rational value of a parsed decimal literal
`[-] mant · 10^(-fracLen) · 10^ex`. -/
def mkNum (neg : Bool) (mant fracLen : Nat) (ex : Int) : GoFloat :=
  let q0 : Rat := (mant : Rat) / (10 : Rat) ^ fracLen
  let q1 : Rat := if 0 ≤ ex then q0 * (10 : Rat) ^ ex.toNat else q0 / (10 : Rat) ^ (-ex).toNat
  .num (if neg then -q1 else q1)

/-- Exponent suffix of a float literal: empty, or `e`/`E`, optional sign,
one or more digits, nothing after. -/
def parseExpTail (neg : Bool) (mant fracLen : Nat) : List Char → Option GoFloat
  | [] => some (mkNum neg mant fracLen 0)
  | c :: rest =>
    if c = 'e' ∨ c = 'E' then
      let esign := match rest with
        | '+' :: ds => (false, ds)
        | '-' :: ds => (true, ds)
        | ds => (false, ds)
      if esign.2 ≠ [] ∧ esign.2.all Char.isDigit then
        some (mkNum neg mant fracLen
          (if esign.1 then -(digitsToNat esign.2 : Int) else (digitsToNat esign.2 : Int)))
      else none
    else none

/-- Decimal part of a float literal: digits, optional dot and more digits,
at least one digit overall, then the exponent suffix. -/
def parseDec (neg : Bool) (cs : List Char) : Option GoFloat :=
  let ip := cs.takeWhile Char.isDigit
  let rest1 := cs.dropWhile Char.isDigit
  match rest1 with
  | '.' :: rest2 =>
    let fp := rest2.takeWhile Char.isDigit
    let rest3 := rest2.dropWhile Char.isDigit
    if ip = [] ∧ fp = [] then none
    else parseExpTail neg (digitsToNat (ip ++ fp)) fp.length rest3
  | _ =>
    if ip = [] then none
    else parseExpTail neg (digitsToNat ip) 0 rest1

/-- Model of `strconv.ParseFloat` on the decimal/special subset the
program can meet (no hex float syntax, no underscores, no overflow to
infinity; the value is exact, not the nearest binary64). -/
def parseFloat (s : String) : Option GoFloat :=
  let cs := s.data
  if cs.map Char.toLower = ['n', 'a', 'n'] then some .nan
  else
    let signed : Bool × List Char := match cs with
      | '+' :: rest => (false, rest)
      | '-' :: rest => (true, rest)
      | rest => (false, rest)
    let low := signed.2.map Char.toLower
    if low = ['i', 'n', 'f'] ∨ low = ['i', 'n', 'f', 'i', 'n', 'i', 't', 'y'] then
      some (.inf signed.1)
    else parseDec signed.1 signed.2

/-! %.4g formatting over exact rationals -/

/-- Decimal digit count of a natural number (fuel-structural). -/
def digitsLenAux : Nat → Nat → Nat
  | 0, _ => 1
  | fuel + 1, n => if n < 10 then 1 else digitsLenAux fuel (n / 10) + 1

/-- Decimal digit count. -/
def digitsLen (n : Nat) : Nat := digitsLenAux n n

/-- Least `k` (starting from the given accumulator) with `a * 10 ^ k ≥ 1`,
fuel-structural; used for the decimal exponent of values below one. -/
def findNegExpAux : Nat → Rat → Nat → Nat
  | 0, _, k => k
  | fuel + 1, a, k => if 1 ≤ a then k else findNegExpAux fuel (a * 10) (k + 1)

/-- Decimal exponent `⌊log10 a⌋` of a positive rational. -/
def decExp (a : Rat) : Int :=
  if 1 ≤ a then (digitsLen a.floor.toNat : Int) - 1
  else -(findNegExpAux a.den (a * 10) 1 : Int)

/-- Round a positive rational to 4 significant digits: the digit block
`n` with `1000 ≤ n ≤ 9999` and the decimal exponent. -/
def sigDigits4 (a : Rat) : Nat × Int :=
  let e := decExp a
  let n : Int :=
    if 3 ≤ e then round (a / (10 : Rat) ^ (e - 3).toNat)
    else round (a * (10 : Rat) ^ ((3 : Int) - e).toNat)
  if n = 10000 then (1000, e + 1) else (n.toNat, e)

/-- Drop trailing zero digits. -/
def stripZeros (ds : List Nat) : List Nat :=
  (ds.reverse.dropWhile (· = 0)).reverse

/-- Character of a decimal digit. -/
def digitChar (d : Nat) : Char := Char.ofNat (48 + d)

/-- Render a digit list. -/
def digitsStr (ds : List Nat) : String := String.mk (ds.map digitChar)

/-- Two-digit minimum decimal rendering of an exponent magnitude. -/
def pad2 (n : Nat) : String := if n < 10 then "0" ++ toString n else toString n

/-- Rendering of `%.4g` for a positive rational. -/
def fmt4gPos (a : Rat) : String :=
  let p := sigDigits4 a
  let n := p.1
  let e := p.2
  let ds := [n / 1000, n / 100 % 10, n / 10 % 10, n % 10]
  if e < -4 ∨ 4 ≤ e then
    let frac := stripZeros ds.tail
    digitsStr (ds.take 1) ++ (if frac = [] then "" else "." ++ digitsStr frac) ++
      "e" ++ (if e < 0 then "-" else "+") ++ pad2 e.natAbs
  else if 0 ≤ e then
    let ip := ds.take (e.toNat + 1)
    let fp := stripZeros (ds.drop (e.toNat + 1))
    digitsStr ip ++ (if fp = [] then "" else "." ++ digitsStr fp)
  else
    "0." ++ String.mk (List.replicate (-(e + 1)).toNat '0') ++ digitsStr (stripZeros ds)

/-- Model of `fmt.Sprintf` with verb `%.4g` on a `GoFloat`. -/
def fmt4g : GoFloat → String
  | .nan => "NaN"
  | .inf neg => if neg then "-Inf" else "+Inf"
  | .num q => if q = 0 then "0" else if q < 0 then "-" ++ fmt4gPos (-q) else fmt4gPos q

/-- The scale-down loop of `humanize`: while the magnitude is at least
1000, divide by 1000 and remember the last prefix taken from the list. -/
def loopDown : Rat → String → List String → Rat × String
  | v, pre, [] => (v, pre)
  | v, pre, p :: ps => if |v| < 1000 then (v, pre) else loopDown (v / 1000) p ps

/-- The scale-up loop of `humanize`: while the magnitude is below one,
multiply by 1000 and remember the last prefix taken from the list. -/
def loopUp : Rat → String → List String → Rat × String
  | v, pre, [] => (v, pre)
  | v, pre, p :: ps => if 1 ≤ |v| then (v, pre) else loopUp (v * 1000) p ps

/-- SI prefixes used by the scale-down loop of `main.go` line 283. -/
def downPrefixes : List String := ["k", "M", "G", "T", "P", "E", "Z", "Y"]

/-- SI prefixes used by the scale-up loop of `main.go` line 293: note the
second entry is the ASCII letter `u`, not the micro sign. -/
def upPrefixes : List String := ["m", "u", "n", "p", "f", "a", "z", "y"]

/-- The body of `humanize` after parsing. -/
def humanizeF : GoFloat → String
  | .nan => fmt4g .nan
  | .inf b => fmt4g (.inf b)
  | .num q =>
    if q = 0 then fmt4g (.num 0)
    else if 1 ≤ |q| then
      let r := loopDown q "" downPrefixes
      fmt4g (.num r.1) ++ r.2
    else
      let r := loopUp q "" upPrefixes
      fmt4g (.num r.1) ++ r.2

/-- Model of `humanize` of `main.go`: parse, then SI-prefix scale;
`none` models the `(string, error)` failure return. -/
def humanize (i : String) : Option String :=
  match parseFloat i with
  | none => none
  | some f => some (humanizeF f)

/-! ## extractValue (main.go lines 253-271) -/

/-- Model of `extractValue` of `main.go`: split on `value=`; anything but
exactly two parts returns the input; otherwise take the second part up to
the first space and humanize it, falling back to the raw token when
humanizing fails.  (The `len(value) == 0` branch of the source is dead:
`strings.Split` never returns an empty slice; the model keeps it as the
unreachable `[]` case.) -/
def extractValue (valueString : String) : String :=
  match goSplit valueString ("value=") with
  | [_, p1] =>
    match splitGo [' '] p1.length p1 with
    | [] => valueString
    | v :: _ =>
      match humanize (String.mk v) with
      | some str => str
      | none => String.mk v
  | _ => valueString

/-! ## Message construction (main.go lines 106-239) -/

/-- Model of `strings.Join` at string level. -/
def joinStr (sep : String) : List String → String
  | [] => ""
  | [x] => x
  | x :: rest => x ++ sep ++ joinStr sep rest

/-- Hexadecimal digit characters. -/
def hexChar (n : Nat) : Char :=
  if n < 10 then Char.ofNat (48 + n) else Char.ofNat (87 + n % 6)

/-- Uppercase hexadecimal digit characters. -/
def hexCharUpper (n : Nat) : Char :=
  if n < 10 then Char.ofNat (48 + n) else Char.ofNat (55 + n % 6)

/-- Model of `net/url.QueryEscape`: unreserved bytes kept, space becomes
`+`, every other byte percent-encoded in uppercase hex. -/
def queryEscape (s : String) : String :=
  String.mk (utf8Bytes s |>.flatMap (fun b =>
    if (48 ≤ b ∧ b ≤ 57) ∨ (65 ≤ b ∧ b ≤ 90) ∨ (97 ≤ b ∧ b ≤ 122) ∨
        b = 45 ∨ b = 95 ∨ b = 46 ∨ b = 126 then [Char.ofNat b]
    else if b = 32 then ['+']
    else ['%', hexCharUpper (b / 16), hexCharUpper (b % 16)]))

/-- JSON string escaping of one character as in `encoding/json` (with the
default HTML escaping of angle brackets and ampersands). -/
def jsonEscapeChar (c : Char) : List Char :=
  if c = '"' then ['\\', '"']
  else if c = '\\' then ['\\', '\\']
  else if c = '\n' then ['\\', 'n']
  else if c = '\r' then ['\\', 'r']
  else if c = '\t' then ['\\', 't']
  else if c.toNat < 32 then
    ['\\', 'u', '0', '0', hexChar (c.toNat / 16), hexChar (c.toNat % 16)]
  else if c = '<' then ['\\', 'u', '0', '0', '3', 'c']
  else if c = '>' then ['\\', 'u', '0', '0', '3', 'e']
  else if c = '&' then ['\\', 'u', '0', '0', '2', '6']
  else [c]

/-- JSON rendering of a string. -/
def jsonQuote (s : String) : String :=
  "\"" ++ String.mk (s.data.flatMap jsonEscapeChar) ++ "\""

/-- Model of `json.Marshal` on a `map[string]string`: keys sorted
bytewise ascending, object syntax with no spaces. -/
def labelsJson (labels : List (String × String)) : String :=
  let keys := List.insertionSort (fun x y => x ≤ y) (labels.map Prod.fst)
  "\x7b" ++ joinStr (",") (keys.map (fun k => jsonQuote k ++ ":" ++ jsonQuote (assocGet k labels))) ++ "\x7d"

/-- The team-label rewrite of `main.go` lines 204-208: the value of the
`label_app_kubernetes_io_team` key gets an `@` prefix.  In Go this is an
in-place write through the shared map reference. -/
def rewriteTeam (labels : List (String × String)) : List (String × String) :=
  labels.map (fun e => if e.1 = "label_app_kubernetes_io_team" then (e.1, "@" ++ e.2) else e)

/-- Header text of one alert (main.go lines 122-129). -/
def summaryOf (a : Alert) : String :=
  (if a.Status ≠ "resolved" then ":sos: " else ":large_green_circle: ") ++
    assocGet "summary" a.Annotations

/-- The Details button (main.go lines 133-145): native mode links the
generator URL, external mode a constructed alert-list query URL. -/
def generatorButton (cfg : Config) (alert : Alert) : Button :=
  let url :=
    if cfg.grafanaAlertSource then alert.GeneratorURL
    else
      let query := "\x7b" ++
        joinStr (",") (alert.Labels.map (fun e => e.1 ++ "=\"" ++ e.2 ++ "\"")) ++ "\x7d"
      cfg.grafanaUrl ++ "/alerting/list?queryString=" ++ queryEscape query ++ "&ruleType=alerting"
  Button.mk "generator" (TextObj.mk "plain_text" (":information_source: Details") true false)
    url "primary"

/-- The Explore button (main.go lines 147-158), external mode only and
skipped when the generator URL fails to parse. -/
def exploreButtons (cfg : Config) (alert : Alert) : List Button :=
  if cfg.grafanaAlertSource then []
  else
    match cfg.parseG0Expr (trimSuffix alert.GeneratorURL ("\\u0026g0.tab=1")) with
    | none => []
    | some expr =>
      let expStr := "\x7b\"datasource\":\"prometheus\",\"queries\":[\x7b\"datasource\":\"Prometheus\",\"expr\":\"" ++
        replaceAll expr ("\"") ("\\\"") ++
        "\",\"refId\":\"A\"\x7d],\"range\":\x7b\"from\":\"now-1h\",\"to\":\"now\"\x7d\x7d"
      [Button.mk "explore"
        (TextObj.mk "plain_text" (":chart_with_upwards_trend: Explore") true false)
        (cfg.grafanaUrl ++ "/explore?left=" ++ queryEscape expStr) "primary"]

/-- The Runbook button (main.go lines 160-167): only for unresolved
alerts with a present, nonempty `runbook_url` annotation. -/
def runbookButtons (alert : Alert) : List Button :=
  if alert.Status ≠ "resolved" then
    match assocFind "runbook_url" alert.Annotations with
    | some runbookUrl =>
      if runbookUrl ≠ "" then
        [Button.mk "runbook"
          (TextObj.mk "plain_text" (":page_with_curl: Runbook") true false) runbookUrl ""]
      else []
    | none => []
  else []

/-- The Silence button (main.go lines 169-183): only for unresolved
alerts when the silence button is not disabled. -/
def silenceButtons (cfg : Config) (alert : Alert) : List Button :=
  if alert.Status ≠ "resolved" ∧ ¬cfg.disableGrafanaSilenceButton then
    let url :=
      if cfg.grafanaAlertSource then alert.SilenceURL
      else cfg.grafanaUrl ++ "/alerting/silence/new?alertmanager=Alertmanager&" ++
        joinStr ("&") (alert.Labels.map (fun e => "matcher=" ++ queryEscape (e.1 ++ "=" ++ e.2)))
    [Button.mk "silence"
      (TextObj.mk "plain_text" (":no_bell: Silence") true false) url "danger"]
  else []

/-- Button row of one alert (main.go lines 131-183): the four conditional
`append`s of the source, in source order. -/
def buildButtons (cfg : Config) (alert : Alert) : List Button :=
  [generatorButton cfg alert] ++ exploreButtons cfg alert ++
    runbookButtons alert ++ silenceButtons cfg alert

/-- Context row of one alert (main.go lines 185-192). -/
def contextElements (a : Alert) : List TextObj :=
  (if a.ValueString ≠ "" then
    [TextObj.mk "plain_text" ("Value: " ++ extractValue a.ValueString) true false]
  else []) ++
  [TextObj.mk "mrkdwn"
    ("<!date^" ++ toString a.StartsAt.unixSec ++ "^Started at: \x7bdate_num\x7d \x7btime_secs\x7d|_>")
    false false] ++
  (if ¬a.EndsAt.isZero then
    [TextObj.mk "mrkdwn"
      ("<!date^" ++ toString a.EndsAt.unixSec ++ "^Ended at: \x7bdate_num\x7d \x7btime_secs\x7d|_>")
      false false]
  else [])

/-- All blocks of one alert (main.go lines 194-219, except the divider).
The labels rendered in the code section, the action block id and the
context block id all use the labels after the team rewrite, exactly as
the source reads the mutated map. -/
def alertBlocks (cfg : Config) (a : Alert) : List Block :=
  let labels2 := rewriteTeam a.Labels
  let labelsStr := replaceAll (replaceAll (labelsJson labels2) ("\":\"") ("\": \"")) ("\",\"") ("\", \"")
  [Block.header (TextObj.mk "plain_text" (summaryOf a) true false)] ++
  (match assocFind "description" a.Annotations with
    | some d => if d ≠ "" then [Block.section (some (TextObj.mk "mrkdwn" d false false)) []] else []
    | none => []) ++
  [Block.section (some (TextObj.mk "mrkdwn" ("```" ++ labelsStr ++ "```") false false)) []] ++
  [Block.actions ("actions-" ++ labelsHash labels2) (buildButtons cfg a)] ++
  [Block.context ("context-" ++ labelsHash labels2) (contextElements a)]

/-- Blocks of one chunk: a divider before every alert except the first
(the `if i != 0` of main.go line 194). -/
def chunkBlocks (cfg : Config) : List Alert → List Block
  | [] => []
  | a :: rest => alertBlocks cfg a ++ rest.flatMap (fun b => Block.divider :: alertBlocks cfg b)

/-- The running fired-summaries accumulator (main.go line 125). -/
def firedText (alerts : List Alert) : String :=
  alerts.foldl (fun acc a =>
    if a.Status ≠ "resolved" then acc ++ "[" ++ assocGet "summary" a.Annotations ++ "] " else acc) ""

/-- The running resolved-summaries accumulator (main.go line 128). -/
def resolvedText (alerts : List Alert) : String :=
  alerts.foldl (fun acc a =>
    if a.Status = "resolved" then acc ++ "[" ++ assocGet "summary" a.Annotations ++ "] " else acc) ""

/-- Preview text of one chunk (main.go lines 222-227). -/
def previewText (alerts : List Alert) : String :=
  if firedText alerts ≠ "" then "Fired: " ++ firedText alerts
  else if resolvedText alerts ≠ "" then "Resolved: " ++ resolvedText alerts
  else ""

/-- One outbound message per chunk (main.go lines 229-234). -/
def renderChunk (cfg : Config) (channel : String) (alerts : List Alert) : WebhookMessage :=
  WebhookMessage.mk cfg.username channel (previewText alerts) (chunkBlocks cfg alerts)

/-- Model of `buildMessages` of `main.go`: group by status, chunk each
group by 7, render one message per chunk. -/
def buildMessages (cfg : Config) (msg : GrafanaMsg) (channel : String) : List WebhookMessage :=
  (groupByStatus msg).flatMap (fun e => (chunkBy e.2 7).map (renderChunk cfg channel))

/-- State left behind by `buildMessages`: Go maps are reference values, so
the team-label rewrite of lines 204-208 writes through the map shared with
the caller's batch.  Every alert of the batch is rendered exactly once
(groups partition the batch and chunks partition each group), hence the
caller's batch after the call carries the rewritten label maps. -/
def buildMessagesFinalBatch (msg : GrafanaMsg) : GrafanaMsg :=
  { msg with Alerts := msg.Alerts.map (fun a => { a with Labels := rewriteTeam a.Labels }) }

/-! ## Webhook gateway (main.go lines 71-104) -/

/-- Outcome of one request: HTTP status and the sequence of delivery
attempts made, in order. -/
structure HandlerResult where
  status : Nat
  attempts : List WebhookMessage
deriving DecidableEq

/-- Model of `handleWebhookRequest` of `main.go`.  The decoded body is
passed as an `Except` (an `error` models `io.ReadAll` or `json.Unmarshal`
failing); `deliver` models `slack.PostWebhookContext` on each message.
The loop keeps only the last delivery error and never stops early. -/
def handleWebhookRequest (cfg : Config) (channelParam : String)
    (body : Except String GrafanaMsg)
    (deliver : WebhookMessage → Except String Unit) : HandlerResult :=
  let channel := if channelParam = "" then "alerts" else channelParam
  match body with
  | .error _ => HandlerResult.mk 500 []
  | .ok grafanaMsg =>
    let slackMsgs := buildMessages cfg grafanaMsg channel
    let lastError := slackMsgs.foldl
      (fun acc m => match deliver m with | .error e => some e | .ok _ => acc)
      (none : Option String)
    HandlerResult.mk (if lastError.isSome then 500 else 200) slackMsgs

/-! ## The earlier revision of the server (src/unnamed/part_000)

This file is an earlier `main.go` of the same repository.  Its
`buildMessage` renders labels as sorted bold-name/code-value fields
chunked ten per section block; the claims about label blocks cite it. -/

namespace Part0

/-- Sorted label names of an alert: `maps.Keys` followed by
`sort.Strings` (part_000 lines 96-97).  `maps.Keys` enumerates in an
unspecified order; sorting makes the result canonical. -/
def labelsNames (labels : List (String × String)) : List String :=
  List.insertionSort (fun x y => x ≤ y) (labels.map Prod.fst)

/-- One rendered label field (part_000 line 101): bold name, code value. -/
def labelField (labels : List (String × String)) (name : String) : TextObj :=
  TextObj.mk "mrkdwn" ("*" ++ name ++ "*:\n`" ++ assocGet name labels ++ "`") false false

/-- Label blocks of one alert (part_000 lines 96-108): sorted fields
chunked by ten, one section block per chunk. -/
def labelBlocks (labels : List (String × String)) : List Block :=
  let labelFields := (labelsNames labels).map (labelField labels)
  (chunkBy labelFields 10).map (fun fields => Block.section none fields)

/-- Model of `extractValue` of part_000 (no humanizing). -/
def extractValue (valueString : String) : String :=
  match goSplit valueString ("value=") with
  | [_, p1] =>
    match splitGo [' '] p1.length p1 with
    | [] => valueString
    | v :: _ => String.mk v
  | _ => valueString

/-- Rendering of `time.Format(time.RFC822)` is modelled as an injective
function of the timestamp; its exact text matters to no claim. -/
def rfc822 (t : GoTime) : String := "RFC822(" ++ toString t.unixSec ++ ")"

/-- Button row of one alert (part_000 lines 73-94): Details always,
Runbook for unresolved alerts with a nonempty `runbook_url` annotation,
Silence for unresolved alerts unconditionally. -/
def buildButtons (alert : Alert) : List Button :=
  let buttons := [Button.mk "generator"
    (TextObj.mk "plain_text" (":chart_with_upwards_trend: Details") true false)
    alert.GeneratorURL "primary"]
  let buttons :=
    if alert.Status ≠ "resolved" then
      match assocFind "runbook_url" alert.Annotations with
      | some runbookUrl =>
        if runbookUrl ≠ "" then
          buttons ++ [Button.mk "runbook"
            (TextObj.mk "plain_text" (":page_with_curl: Runbook") true false) runbookUrl ""]
        else buttons
      | none => buttons
    else buttons
  if alert.Status ≠ "resolved" then
    buttons ++ [Button.mk "silence"
      (TextObj.mk "plain_text" (":no_bell: Silence") true false) alert.SilenceURL "danger"]
  else buttons

/-- Context row of one alert (part_000 lines 110-117). -/
def contextElements (a : Alert) : List TextObj :=
  (if a.ValueString ≠ "" then
    [TextObj.mk "plain_text" ("Value: " ++ Part0.extractValue a.ValueString) true false]
  else []) ++
  [TextObj.mk "plain_text" ("Started at: " ++ rfc822 a.StartsAt) true false] ++
  (if ¬a.EndsAt.isZero then
    [TextObj.mk "plain_text" ("Ended at: " ++ rfc822 a.EndsAt) true false]
  else [])

/-- Model of `buildMessage` of part_000: the loop body returns on its
first iteration, so only the first alert is rendered; an empty batch
yields the zero-valued message. -/
def buildMessage (msg : GrafanaMsg) : WebhookMessage :=
  match msg.Alerts with
  | [] => WebhookMessage.mk "" "" "" []
  | alert :: _ =>
    let summary := (if alert.Status ≠ "resolved" then ":sos: " else ":large_green_circle: ") ++
      assocGet "summary" alert.Annotations
    let blocks :=
      [Block.header (TextObj.mk "plain_text" summary true false),
       Block.section (some (TextObj.mk "mrkdwn" ("> " ++ assocGet "description" alert.Annotations) false false)) []] ++
      labelBlocks alert.Labels ++
      [Block.actions ("actions") (buildButtons alert),
       Block.context ("context") (contextElements alert)]
    WebhookMessage.mk "Grafana" "slamdev-test" "" blocks

end Part0

/-! ## Observation helpers and concrete fixtures used by the theorems -/

/-- Fields of a section block (empty for other blocks). -/
def fieldsOf : Block → List TextObj
  | .section _ fields => fields
  | _ => []

/-- Header text of a block, when it is a header block. -/
def headerTextOf : Block → Option String
  | .header t => some t.text
  | _ => none

/-- Button rows of a message, in block order. -/
def actionRows (m : WebhookMessage) : List (List Button) :=
  m.Blocks.filterMap (fun b => match b with
    | .actions _ bs => some bs
    | _ => none)

/-- Default-flag configuration (`main.go` flag defaults). -/
def cfgDefault : Config :=
  Config.mk "Grafana" true "" true (fun _ => none)

/-- A zero time (`EndsAt` of a still-firing alert). -/
def tZero : GoTime := GoTime.mk (-6795364578871) true

/-- A sample non-zero time. -/
def tSome : GoTime := GoTime.mk 1700000000 false

/-- A firing alert fixture with a runbook annotation. -/
def alertFiring : Alert :=
  Alert.mk "firing" [("alertname", "HighLoad")]
    [("summary", "load high"), ("runbook_url", "http://rb")]
    tSome tZero "http://gen" "fp1" "http://sil" "" "" ""

/-- A second firing alert fixture, without a runbook annotation. -/
def alertFiring2 : Alert :=
  Alert.mk "firing" [("alertname", "DiskFull")]
    [("summary", "disk full")]
    tSome tZero "http://gen2" "fp2" "http://sil2" "" "" ""

/-- A resolved alert fixture with a runbook annotation. -/
def alertResolved : Alert :=
  Alert.mk "resolved" [("alertname", "HighLoad")]
    [("summary", "load high"), ("runbook_url", "http://rb")]
    tSome tSome "http://gen" "fp1" "http://sil" "" "" ""

/-- An alert fixture carrying the team label. -/
def alertTeam : Alert :=
  Alert.mk "firing" [("label_app_kubernetes_io_team", "devops")]
    [("summary", "s")]
    tSome tZero "http://gen" "fp" "http://sil" "" "" ""

/-- A two-alert single-status batch fixture. -/
def batchTwoFiring : GrafanaMsg := { Alerts := [alertFiring, alertFiring2] }

/-- A one-alert batch fixture carrying the team label. -/
def batchTeam : GrafanaMsg := { Alerts := [alertTeam] }

/-! ## Supporting lemmas -/

theorem chunkByAux_fuel_irrel (k : Nat) (hk : 0 < k) :
    ∀ fuel₁ fuel₂ l, (l : List α).length ≤ fuel₁ → l.length ≤ fuel₂ →
      chunkByAux k fuel₁ l = chunkByAux k fuel₂ l := by
  intro fuel₁
  induction fuel₁ with
  | zero =>
    intro fuel₂ l h1 h2
    have hl : l = [] := List.length_eq_zero.mp (Nat.le_zero.mp h1)
    subst hl
    cases fuel₂ <;> simp [chunkByAux]
  | succ n ih =>
    intro fuel₂ l h1 h2
    cases fuel₂ with
    | zero =>
      have hl : l = [] := List.length_eq_zero.mp (Nat.le_zero.mp h2)
      subst hl
      simp [chunkByAux]
    | succ m =>
      simp only [chunkByAux]
      by_cases h : k < l.length
      · simp only [h, if_pos]
        have hdrop : (l.drop k).length ≤ n := by
          rw [List.length_drop]; omega
        have hdrop' : (l.drop k).length ≤ m := by
          rw [List.length_drop]; omega
        rw [ih m (l.drop k) hdrop hdrop']
      · simp [h]

/-- Unfolding equation of `chunkBy` for positive chunk sizes. -/
theorem chunkBy_eq (hk : 0 < k) (l : List α) :
    chunkBy l k = if k < l.length then l.take k :: chunkBy (l.drop k) k else [l] := by
  unfold chunkBy
  cases hlen : l.length with
  | zero =>
    have : ¬ k < 0 := by omega
    simp [chunkByAux, hlen, this]
  | succ m =>
    simp only [chunkByAux, hlen]
    by_cases h : k < l.length
    · rw [hlen] at h
      simp only [h, if_pos]
      rw [chunkByAux_fuel_irrel k hk m (l.drop k).length (l.drop k)
        (by rw [List.length_drop]; omega) (le_refl _)]
    · rw [hlen] at h
      simp [h]

/-- Concatenating the chunks gives back the original list: chunking
preserves the order and content of the group. -/
theorem chunkBy_join (hk : 0 < k) (l : List α) : (chunkBy l k).flatten = l := by
  generalize hlen : l.length = n
  induction n using Nat.strong_induction_on generalizing l with
  | _ n ih =>
    rw [chunkBy_eq hk]
    by_cases h : k < l.length
    · simp only [h, if_pos, List.flatten_cons]
      rw [ih ((l.drop k).length) (by rw [List.length_drop]; omega) _ rfl]
      exact List.take_append_drop k l
    · simp [h]

/-- Every chunk of a nonempty list is nonempty. -/
theorem chunkBy_ne_nil (hk : 0 < k) (l : List α) (hl : l ≠ []) :
    ∀ c ∈ chunkBy l k, c ≠ [] := by
  generalize hlen : l.length = n
  induction n using Nat.strong_induction_on generalizing l with
  | _ n ih =>
    rw [chunkBy_eq hk]
    by_cases h : k < l.length
    · simp only [h, if_pos, List.mem_cons]
      intro c hc
      rcases hc with hc | hc
      · subst hc
        have : (l.take k).length = k := by rw [List.length_take]; omega
        intro hnil
        rw [hnil] at this
        simp at this
        omega
      · have hd : l.drop k ≠ [] := by
          intro hnil
          have := List.length_drop k l
          rw [hnil] at this
          simp at this
          omega
        exact ih ((l.drop k).length) (by rw [List.length_drop]; omega) _ hd rfl c hc
    · simp only [h, if_neg, not_false_iff, List.mem_singleton]
      intro c hc
      subst hc
      exact hl

/-- Every chunk has at most `k` elements. -/
theorem chunkBy_le (hk : 0 < k) (l : List α) :
    ∀ c ∈ chunkBy l k, c.length ≤ k := by
  generalize hlen : l.length = n
  induction n using Nat.strong_induction_on generalizing l with
  | _ n ih =>
    rw [chunkBy_eq hk]
    by_cases h : k < l.length
    · simp only [h, if_pos, List.mem_cons]
      intro c hc
      rcases hc with hc | hc
      · subst hc
        rw [List.length_take]
        omega
      · exact ih ((l.drop k).length) (by rw [List.length_drop]; omega) _ rfl c hc
    · simp only [h, if_neg, not_false_iff, List.mem_singleton]
      intro c hc
      subst hc
      omega

/-- Number of chunks of a nonempty list: `⌈l.length / k⌉`. -/
theorem chunkBy_length (hk : 0 < k) (l : List α) (hl : l ≠ []) :
    (chunkBy l k).length = (l.length + (k - 1)) / k := by
  generalize hlen : l.length = n
  induction n using Nat.strong_induction_on generalizing l with
  | _ n ih =>
    rw [chunkBy_eq hk]
    by_cases h : k < l.length
    · simp only [h, if_pos, List.length_cons]
      have hd : l.drop k ≠ [] := by
        intro hnil
        have := List.length_drop k l
        rw [hnil] at this
        simp at this
        omega
      rw [ih ((l.drop k).length) (by rw [List.length_drop]; omega) _ hd rfl]
      rw [List.length_drop, ← hlen]
      rcases Nat.exists_eq_add_of_lt h with ⟨m, hm⟩
      rw [hm]
      have h2 : k + m + 1 - k = m + 1 := by omega
      rw [h2]
      have h3 : k + m + 1 + (k - 1) = (m + 1 + (k - 1)) + k := by omega
      rw [h3, Nat.add_div_right _ hk]
    · simp only [h, if_neg, not_false_iff, List.length_singleton]
      have h1 : 0 < l.length := by
        cases l with
        | nil => exact absurd rfl hl
        | cons a t => simp
      have h2 : l.length ≤ k := by omega
      rw [← hlen]
      have h3 : 1 * k ≤ l.length + (k - 1) := by omega
      have h4 : l.length + (k - 1) < (1 + 1) * k := by omega
      exact (Nat.div_eq_of_lt_le h3 h4).symm

theorem assocFind_map_update_self (acc : List (String × List Alert)) (a : Alert) :
    assocFind a.Status (acc.map (fun e => if e.1 = a.Status then (e.1, e.2 ++ [a]) else e)) =
      (assocFind a.Status acc).map (· ++ [a]) := by
  induction acc with
  | nil => simp [assocFind]
  | cons e rest ih =>
    by_cases he : e.1 = a.Status
    · simp [assocFind, he]
    · simp [assocFind, he, ih]

theorem assocFind_map_update_other (acc : List (String × List Alert)) (a : Alert)
    (s : String) (hs : s ≠ a.Status) :
    assocFind s (acc.map (fun e => if e.1 = a.Status then (e.1, e.2 ++ [a]) else e)) =
      assocFind s acc := by
  induction acc with
  | nil => simp [assocFind]
  | cons e rest ih =>
    have h2 : ¬ a.Status = s := fun h => hs h.symm
    by_cases he : e.1 = a.Status
    · have h3 : ¬ e.1 = s := by rw [he]; exact fun h => hs h.symm
      simp [assocFind, he, h3, h2, hs, ih]
    · by_cases he2 : e.1 = s
      · simp [assocFind, he, he2, h2, hs]
      · simp [assocFind, he, he2, h2, hs, ih]

theorem contains_iff_assocFind (acc : List (String × β)) (x : String) :
    (acc.map Prod.fst).contains x = true ↔ (assocFind x acc).isSome = true := by
  induction acc with
  | nil => simp [assocFind]
  | cons e rest ih =>
    simp only [List.map_cons, List.contains_cons, Bool.or_eq_true, beq_iff_eq, assocFind]
    by_cases he : e.1 = x
    · simp [he]
    · have hx : ¬ x = e.1 := fun h => he h.symm
      rw [or_iff_right hx, if_neg he]
      exact ih

theorem assocFind_append_singleton (acc : List (String × β)) (x : String) (g : β)
    (s : String) :
    assocFind s (acc ++ [(x, g)]) =
      match assocFind s acc with
      | some g' => some g'
      | none => if x = s then some g else none := by
  induction acc with
  | nil => simp [assocFind]
  | cons e rest ih =>
    by_cases he : e.1 = s
    · simp [assocFind, he]
    · simp [assocFind, he, ih]

theorem assocFind_insertAlert (acc : List (String × List Alert)) (a : Alert) (s : String) :
    assocFind s (insertAlert acc a) =
      if a.Status = s then some ((assocFind s acc).getD [] ++ [a]) else assocFind s acc := by
  unfold insertAlert
  by_cases hc : ((acc.map Prod.fst).contains a.Status) = true
  · rw [if_pos hc]
    by_cases hs : a.Status = s
    · subst hs
      rw [assocFind_map_update_self]
      have hsome := (contains_iff_assocFind acc a.Status).mp hc
      rcases h : assocFind a.Status acc with _ | g
      · rw [h] at hsome; simp at hsome
      · simp [h]
    · rw [assocFind_map_update_other acc a s (fun h => hs h.symm)]
      simp [hs]
  · rw [if_neg hc]
    rw [assocFind_append_singleton]
    have hnone : assocFind a.Status acc = none := by
      rcases h : assocFind a.Status acc with _ | g
      · rfl
      · exfalso
        apply hc
        rw [contains_iff_assocFind, h]
        rfl
    by_cases hs : a.Status = s
    · subst hs
      rw [hnone]
      simp
    · rcases h : assocFind s acc with _ | g
      · simp [hs]
      · simp [hs]

/-- Lookup view of the grouping fold: alerts are appended to their status
group in batch order, so each group is the batch filtered by that status. -/
theorem foldl_insertAlert_assocFind (alerts : List Alert) :
    ∀ (acc : List (String × List Alert)) (s : String),
      assocFind s (alerts.foldl insertAlert acc) =
        match assocFind s acc, alerts.filter (fun a => a.Status == s) with
        | some g, f => some (g ++ f)
        | none, [] => none
        | none, f => some f := by
  induction alerts with
  | nil =>
    intro acc s
    rcases h : assocFind s acc with _ | g <;> simp [h]
  | cons a rest ih =>
    intro acc s
    simp only [List.foldl_cons]
    rw [ih (insertAlert acc a) s, assocFind_insertAlert]
    by_cases hs : a.Status = s
    · have hb : (a.Status == s) = true := beq_iff_eq.mpr hs
      simp only [hs, if_pos, List.filter_cons, hb, if_true]
      rcases h : assocFind s acc with _ | g
      · simp
      · simp
    · have hb : (a.Status == s) = false := beq_eq_false_iff_ne.mpr hs
      simp only [hs, if_neg, List.filter_cons, hb]
      rcases h : assocFind s acc with _ | g <;> simp

/-- Keys of the grouped list stay distinct through the fold. -/
theorem insertAlert_keys_nodup (acc : List (String × List Alert)) (a : Alert)
    (h : (acc.map Prod.fst).Nodup) : ((insertAlert acc a).map Prod.fst).Nodup := by
  unfold insertAlert
  by_cases hc : ((acc.map Prod.fst).contains a.Status) = true
  · rw [if_pos hc]
    have hfst : ∀ (l : List (String × List Alert)),
        (l.map (fun e => if e.1 = a.Status then (e.1, e.2 ++ [a]) else e)).map Prod.fst
          = l.map Prod.fst := by
      intro l
      induction l with
      | nil => rfl
      | cons e rest ih2 =>
        by_cases he : e.1 = a.Status
        · simp [he, ih2]
        · simp [he, ih2]
    rw [hfst]
    exact h
  · rw [if_neg hc]
    rw [List.map_append]
    simp only [List.map_cons, List.map_nil]
    rw [List.nodup_append]
    refine ⟨h, List.nodup_singleton _, ?_⟩
    intro x hx h1
    simp only [List.mem_singleton] at h1
    subst h1
    exact hc (by simpa using hx)

theorem groupByStatus_keys_nodup (msg : GrafanaMsg) :
    ((groupByStatus msg).map Prod.fst).Nodup := by
  unfold groupByStatus
  have : ∀ (alerts : List Alert) (acc : List (String × List Alert)),
      (acc.map Prod.fst).Nodup → ((alerts.foldl insertAlert acc).map Prod.fst).Nodup := by
    intro alerts
    induction alerts with
    | nil => intro acc h; exact h
    | cons a rest ih =>
      intro acc h
      exact ih (insertAlert acc a) (insertAlert_keys_nodup acc a h)
  exact this msg.Alerts [] (by simp)

/-- Membership with distinct keys agrees with lookup. -/
theorem mem_iff_assocFind (acc : List (String × β)) (h : (acc.map Prod.fst).Nodup)
    (s : String) (g : β) : (s, g) ∈ acc ↔ assocFind s acc = some g := by
  induction acc with
  | nil => simp [assocFind]
  | cons e rest ih =>
    simp only [List.map_cons, List.nodup_cons] at h
    by_cases he : e.1 = s
    · simp only [assocFind, he, if_pos, List.mem_cons]
      constructor
      · intro hm
        rcases hm with hm | hm
        · rw [← hm]
        · exfalso
          apply h.1
          rw [he]
          exact List.mem_map.mpr ⟨(s, g), hm, rfl⟩
      · intro hs
        left
        have : e = (e.1, e.2) := rfl
        rw [this, he]
        injection hs with hs
        rw [hs]
    · simp only [assocFind, if_neg he, List.mem_cons]
      rw [← ih h.2]
      constructor
      · intro hm
        rcases hm with hm | hm
        · exfalso
          apply he
          rw [← hm]
        · exact hm
      · intro hm
        right
        exact hm

/-- Every entry of `groupByStatus` is exactly the batch filtered by its
status key, in batch order, and in particular nonempty. -/
theorem groupByStatus_mem (msg : GrafanaMsg) (s : String) (g : List Alert)
    (h : (s, g) ∈ groupByStatus msg) :
    g = msg.Alerts.filter (fun a => a.Status == s) ∧ g ≠ [] := by
  have hfind : assocFind s (groupByStatus msg) = some g :=
    (mem_iff_assocFind _ (groupByStatus_keys_nodup msg) s g).mp h
  unfold groupByStatus at hfind
  rw [foldl_insertAlert_assocFind msg.Alerts [] s] at hfind
  simp only [assocFind] at hfind
  rcases hf : msg.Alerts.filter (fun a => a.Status == s) with _ | ⟨a, f⟩
  · rw [hf] at hfind
    simp at hfind
  · rw [hf] at hfind
    simp only at hfind
    injection hfind with hfind
    subst hfind
    exact ⟨hf.symm, by simp⟩

/-! ## Claim theorems -/

/-- C1: for every alert batch, `buildMessages` produces one outbound
message per chunk: the total count is the sum over status groups of
`⌈groupSize / 7⌉` (alerts are partitioned by exact status value, each
group split into chunks of 7 with a possibly shorter final chunk). -/
theorem c1_message_count (cfg : Config) (msg : GrafanaMsg) (channel : String) :
    (buildMessages cfg msg channel).length =
      ((groupByStatus msg).map (fun e => (e.2.length + 6) / 7)).sum := by
  unfold buildMessages
  rw [List.length_flatMap]
  congr 1
  apply List.map_congr_left
  intro e he
  simp only [Function.comp_apply, List.length_map]
  have hmem : (e.1, e.2) ∈ groupByStatus msg := by
    rw [Prod.mk.eta]
    exact he
  have h := groupByStatus_mem msg e.1 e.2 hmem
  rw [chunkBy_length (by norm_num) e.2 h.2]

/-- C9 is false of the code: the team-label rewrite writes through the
label map shared with the caller's batch, so after `buildMessages`
returns the input batch's label map has changed (`devops` became
`@devops`); annotations are untouched but the labels are not. -/
theorem c9_label_map_mutation_persists :
    (buildMessagesFinalBatch batchTeam).Alerts.map Alert.Labels =
        [[("label_app_kubernetes_io_team", "@devops")]] ∧
      batchTeam.Alerts.map Alert.Labels =
        [[("label_app_kubernetes_io_team", "devops")]] ∧
      buildMessagesFinalBatch batchTeam ≠ batchTeam := by
  refine ⟨by decide, by decide, by decide⟩

/-- C5 is false of the code: the label hash concatenates the map entries
in enumeration order, so the two enumeration orders of the same two-entry
label map hash to different 32-bit values. -/
theorem c5_hash_depends_on_enumeration_order :
    ([(("a" : String), ("b" : String)), ("c", "d")]).Perm [("c", "d"), ("a", "b")] ∧
      labelsHash [("a", "b"), ("c", "d")] ≠ labelsHash [("c", "d"), ("a", "b")] := by
  constructor
  · exact List.Perm.swap _ _ _
  · decide

theorem alertBlocks_headers (cfg : Config) (a : Alert) :
    (alertBlocks cfg a).filterMap headerTextOf = [summaryOf a] := by
  unfold alertBlocks
  rcases hd : assocFind "description" a.Annotations with _ | d
  · simp [headerTextOf, hd]
  · by_cases hne : d ≠ ""
    · simp [headerTextOf, hd, hne]
    · simp [headerTextOf, hd, hne]

theorem chunkBlocks_headers (cfg : Config) (alerts : List Alert) :
    (chunkBlocks cfg alerts).filterMap headerTextOf = alerts.map summaryOf := by
  cases alerts with
  | nil => rfl
  | cons a rest =>
    unfold chunkBlocks
    rw [List.filterMap_append, alertBlocks_headers]
    have htail : ∀ (l : List Alert),
        (l.flatMap (fun b => Block.divider :: alertBlocks cfg b)).filterMap headerTextOf =
          l.map summaryOf := by
      intro l
      induction l with
      | nil => rfl
      | cons b l2 ih =>
        simp only [List.flatMap_cons, List.filterMap_append, List.filterMap_cons]
        simp only [headerTextOf]
        rw [alertBlocks_headers, ih]
        simp
    rw [htail]
    simp

/-- C2: for every batch, grouping by status preserves the batch order of
each status group (the group equals the batch filtered by that status),
chunking preserves order within the group (the chunks concatenate back to
the group), and the alerts rendered inside each chunk's message appear in
exactly the chunk's order (witnessed by the header sequence). -/
theorem c2_chunk_order (cfg : Config) (channel : String) (msg : GrafanaMsg)
    (s : String) (g : List Alert) (h : (s, g) ∈ groupByStatus msg) :
    (chunkBy g 7).flatten = msg.Alerts.filter (fun a => a.Status == s) ∧
      ∀ chunk ∈ chunkBy g 7,
        (renderChunk cfg channel chunk).Blocks.filterMap headerTextOf =
          chunk.map summaryOf := by
  constructor
  · rw [chunkBy_join (by norm_num) g]
    exact (groupByStatus_mem msg s g h).1
  · intro chunk _
    exact chunkBlocks_headers cfg chunk

/-- Witness for C2 at a concrete two-alert batch. -/
theorem c2_chunk_order_witness :
    (chunkBy [alertFiring, alertFiring2] 7).flatten =
        batchTwoFiring.Alerts.filter (fun a => a.Status == "firing") ∧
      ∀ chunk ∈ chunkBy [alertFiring, alertFiring2] 7,
        (renderChunk cfgDefault "alerts" chunk).Blocks.filterMap headerTextOf =
          chunk.map summaryOf :=
  c2_chunk_order cfgDefault "alerts" batchTwoFiring "firing" [alertFiring, alertFiring2]
    (by decide)

theorem foldl_lastError_some (deliver : WebhookMessage → Except String Unit) :
    ∀ (msgs : List WebhookMessage) (e : String),
      msgs.foldl (fun acc m => match deliver m with | .error e2 => some e2 | .ok _ => acc)
        (some e) ≠ none := by
  intro msgs
  induction msgs with
  | nil => intro e; simp
  | cons m rest ih =>
    intro e
    simp only [List.foldl_cons]
    rcases hd : deliver m with e2 | u
    · simp only [hd]
      exact ih e2
    · simp only [hd]
      exact ih e

theorem foldl_lastError_none_iff (deliver : WebhookMessage → Except String Unit) :
    ∀ (msgs : List WebhookMessage),
      (msgs.foldl (fun acc m => match deliver m with | .error e2 => some e2 | .ok _ => acc)
          (none : Option String)) = none ↔
        ∀ m ∈ msgs, deliver m = .ok () := by
  intro msgs
  induction msgs with
  | nil => simp
  | cons m rest ih =>
    simp only [List.foldl_cons, List.mem_cons]
    rcases hd : deliver m with e2 | u
    · simp only [hd]
      constructor
      · intro hfold
        exact absurd hfold (foldl_lastError_some deliver rest e2)
      · intro hall
        have := hall m (Or.inl rfl)
        rw [hd] at this
        exact absurd this (by simp)
    · simp only [hd]
      rw [ih]
      constructor
      · intro hall m2 hm2
        rcases hm2 with hm2 | hm2
        · subst hm2
          rw [hd]
        · exact hall m2 hm2
      · intro hall m2 hm2
        exact hall m2 (Or.inr hm2)

/-- C3: the gateway returns success iff every produced message's delivery
attempt succeeds; a body that fails to decode yields a server error with
zero delivery attempts; and delivery failures never prevent the delivery
attempts of the remaining messages (the attempt list always equals the
whole built message list). -/
theorem c3_gateway (cfg : Config) (chan : String) (g : GrafanaMsg) (e : String)
    (deliver : WebhookMessage → Except String Unit) :
    handleWebhookRequest cfg chan (.error e) deliver = HandlerResult.mk 500 [] ∧
      (handleWebhookRequest cfg chan (.ok g) deliver).attempts =
        buildMessages cfg g (if chan = "" then "alerts" else chan) ∧
      ((handleWebhookRequest cfg chan (.ok g) deliver).status = 200 ↔
        ∀ m ∈ buildMessages cfg g (if chan = "" then "alerts" else chan),
          deliver m = .ok ()) := by
  refine ⟨rfl, rfl, ?_⟩
  unfold handleWebhookRequest
  simp only
  rw [← foldl_lastError_none_iff deliver]
  rcases hres : (buildMessages cfg g (if chan = "" then "alerts" else chan)).foldl
      (fun acc m => match deliver m with | .error e2 => some e2 | .ok _ => acc)
      (none : Option String) with _ | e2
  · simp
  · simp

/-- C10: an empty batch produces no messages and the gateway then
responds with success having attempted zero deliveries; and chunking
never manufactures an empty message because status groups are only
created nonempty and chunks of a nonempty group are nonempty. -/
theorem c10_empty_batch (cfg : Config) (msg : GrafanaMsg) (channel chan : String)
    (deliver : WebhookMessage → Except String Unit) (h : msg.Alerts = []) :
    buildMessages cfg msg channel = [] ∧
      handleWebhookRequest cfg chan (.ok msg) deliver = HandlerResult.mk 200 [] ∧
      ∀ (msg2 : GrafanaMsg), ∀ e ∈ groupByStatus msg2,
        e.2 ≠ [] ∧ ∀ c ∈ chunkBy e.2 7, c ≠ [] := by
  have hempty : buildMessages cfg msg channel = [] := by
    unfold buildMessages groupByStatus
    rw [h]
    rfl
  have hempty2 : ∀ ch, buildMessages cfg msg ch = [] := by
    intro ch
    unfold buildMessages groupByStatus
    rw [h]
    rfl
  refine ⟨hempty, ?_, ?_⟩
  · unfold handleWebhookRequest
    simp only [hempty2]
    rfl
  · intro msg2 e he
    have hmem : (e.1, e.2) ∈ groupByStatus msg2 := by
      rw [Prod.mk.eta]
      exact he
    have hg := groupByStatus_mem msg2 e.1 e.2 hmem
    exact ⟨hg.2, chunkBy_ne_nil (by norm_num) e.2 hg.2⟩

/-- Witness for C10 at the empty batch. -/
theorem c10_empty_batch_witness :
    buildMessages cfgDefault {} "alerts" = [] ∧
      handleWebhookRequest cfgDefault "" (.ok {}) (fun _ => .ok ()) =
        HandlerResult.mk 200 [] :=
  ⟨(c10_empty_batch cfgDefault {} "alerts" "" (fun _ => .ok ()) rfl).1,
   (c10_empty_batch cfgDefault {} "alerts" "" (fun _ => .ok ()) rfl).2.1⟩

theorem alertBlocks_actions (cfg : Config) (a : Alert) :
    (alertBlocks cfg a).filterMap
        (fun b => match b with | .actions _ bs => some bs | _ => none) =
      [buildButtons cfg a] := by
  unfold alertBlocks
  rcases hd : assocFind "description" a.Annotations with _ | d
  · simp [hd]
  · by_cases hne : d ≠ ""
    · simp [hd, hne]
    · simp [hd, hne]

theorem chunkBlocks_actions (cfg : Config) (alerts : List Alert) :
    (chunkBlocks cfg alerts).filterMap
        (fun b => match b with | .actions _ bs => some bs | _ => none) =
      alerts.map (buildButtons cfg) := by
  cases alerts with
  | nil => rfl
  | cons a rest =>
    unfold chunkBlocks
    rw [List.filterMap_append, alertBlocks_actions]
    have htail : ∀ (l : List Alert),
        (l.flatMap (fun b => Block.divider :: alertBlocks cfg b)).filterMap
            (fun b => match b with | .actions _ bs => some bs | _ => none) =
          l.map (buildButtons cfg) := by
      intro l
      induction l with
      | nil => rfl
      | cons b l2 ih =>
        simp only [List.flatMap_cons, List.filterMap_append, List.filterMap_cons]
        rw [alertBlocks_actions, ih]
        simp
    rw [htail]
    simp


theorem exploreButtons_id (cfg : Config) (alert : Alert) :
    ∀ b ∈ exploreButtons cfg alert, b.actionId = "explore" := by
  intro b hb
  unfold exploreButtons at hb
  by_cases hga : cfg.grafanaAlertSource
  · simp [hga] at hb
  · simp only [hga, Bool.false_eq_true, if_false] at hb
    rcases hp : cfg.parseG0Expr (trimSuffix alert.GeneratorURL ("\\u0026g0.tab=1")) with _ | expr <;>
      rw [hp] at hb
    · simp at hb
    · simp only [List.mem_singleton] at hb
      subst hb
      rfl

theorem runbookButtons_mem (alert : Alert) (b : Button) :
    b ∈ runbookButtons alert →
      b.actionId = "runbook" ∧ alert.Status ≠ "resolved" ∧
        ∃ u, assocFind "runbook_url" alert.Annotations = some u ∧ u ≠ "" := by
  intro hb
  unfold runbookButtons at hb
  by_cases hs : alert.Status ≠ "resolved"
  · rw [if_pos hs] at hb
    split at hb
    next u heq =>
      by_cases hu : u ≠ ""
      · rw [if_pos hu] at hb
        simp only [List.mem_singleton] at hb
        subst hb
        exact ⟨rfl, hs, u, heq, hu⟩
      · rw [if_neg hu] at hb
        simp at hb
    next heq => simp at hb
  · rw [if_neg hs] at hb
    simp at hb

theorem runbookButtons_present (alert : Alert) (hs : alert.Status ≠ "resolved")
    (u : String) (hr : assocFind "runbook_url" alert.Annotations = some u) (hu : u ≠ "") :
    Button.mk "runbook" (TextObj.mk "plain_text" (":page_with_curl: Runbook") true false) u "" ∈
      runbookButtons alert := by
  unfold runbookButtons
  rw [if_pos hs, hr]
  simp [hu]

theorem silenceButtons_mem (cfg : Config) (alert : Alert) (b : Button) :
    b ∈ silenceButtons cfg alert →
      b.actionId = "silence" ∧ alert.Status ≠ "resolved" ∧
        ¬cfg.disableGrafanaSilenceButton := by
  intro hb
  unfold silenceButtons at hb
  by_cases hc : alert.Status ≠ "resolved" ∧ ¬cfg.disableGrafanaSilenceButton
  · rw [if_pos hc] at hb
    simp only [List.mem_singleton] at hb
    subst hb
    exact ⟨rfl, hc.1, hc.2⟩
  · rw [if_neg hc] at hb
    simp at hb

/-- C8: in every rendered message the button rows are exactly the per-
alert button rows, a resolved alert's row never contains a Silence or a
Runbook button, and an unresolved alert's row contains a Runbook button
iff its `runbook_url` annotation exists and is nonempty. -/
theorem c8_buttons (cfg : Config) (channel : String) (chunk : List Alert) (alert : Alert) :
    actionRows (renderChunk cfg channel chunk) = chunk.map (buildButtons cfg) ∧
      (alert.Status = "resolved" →
        ∀ b ∈ buildButtons cfg alert, b.actionId ≠ "runbook" ∧ b.actionId ≠ "silence") ∧
      (alert.Status ≠ "resolved" →
        ((∃ b ∈ buildButtons cfg alert, b.actionId = "runbook") ↔
          ∃ u, assocFind "runbook_url" alert.Annotations = some u ∧ u ≠ "")) := by
  refine ⟨chunkBlocks_actions cfg chunk, ?_, ?_⟩
  · intro hres b hb
    unfold buildButtons at hb
    simp only [List.mem_append, List.mem_singleton] at hb
    rcases hb with ((hb | hb) | hb) | hb
    · subst hb
      constructor <;> simp [generatorButton]
    · have := exploreButtons_id cfg alert b hb
      rw [this]
      constructor <;> simp
    · have := (runbookButtons_mem alert b hb).2.1
      exact absurd hres (by simpa using this)
    · have := (silenceButtons_mem cfg alert b hb).2.1
      exact absurd hres (by simpa using this)
  · intro hs
    constructor
    · rintro ⟨b, hb, hid⟩
      unfold buildButtons at hb
      simp only [List.mem_append, List.mem_singleton] at hb
      rcases hb with ((hb | hb) | hb) | hb
      · subst hb
        simp [generatorButton] at hid
      · have := exploreButtons_id cfg alert b hb
        rw [this] at hid
        simp at hid
      · exact (runbookButtons_mem alert b hb).2.2
      · have := (silenceButtons_mem cfg alert b hb).1
        rw [this] at hid
        simp at hid
    · rintro ⟨u, hr, hu⟩
      refine ⟨Button.mk "runbook"
        (TextObj.mk "plain_text" (":page_with_curl: Runbook") true false) u "", ?_, rfl⟩
      unfold buildButtons
      simp only [List.mem_append]
      exact Or.inl (Or.inr (runbookButtons_present alert hs u hr hu))

/-- Witness for C8: the resolved fixture has neither button, the firing
fixture has its Runbook button. -/
theorem c8_buttons_witness :
    (∀ b ∈ buildButtons cfgDefault alertResolved,
        b.actionId ≠ "runbook" ∧ b.actionId ≠ "silence") ∧
      (∃ b ∈ buildButtons cfgDefault alertFiring, b.actionId = "runbook") :=
  ⟨(c8_buttons cfgDefault "alerts" [] alertResolved).2.1 rfl,
   ((c8_buttons cfgDefault "alerts" [] alertFiring).2.2 (by decide)).mpr
     ⟨"http://rb", by decide, by decide⟩⟩

/-- C4: in the label rendering of `buildMessage` (src/unnamed/part_000
lines 96-108) the fields across the label blocks are exactly one bold-
name/code-value pair per label, in lexicographically sorted name order
(the sorted names are a permutation of the label keys, hence with
distinct keys each label appears exactly once), and every block holds at
most ten fields. -/
theorem c4_label_blocks (labels : List (String × String))
    (h : (labels.map Prod.fst).Nodup) :
    (Part0.labelBlocks labels).flatMap fieldsOf =
        (Part0.labelsNames labels).map (Part0.labelField labels) ∧
      (Part0.labelsNames labels).Perm (labels.map Prod.fst) ∧
      List.Sorted (fun x y => x ≤ y) (Part0.labelsNames labels) ∧
      (Part0.labelsNames labels).Nodup ∧
      ∀ b ∈ Part0.labelBlocks labels, (fieldsOf b).length ≤ 10 := by
  refine ⟨?_, ?_, ?_, ?_, ?_⟩
  · unfold Part0.labelBlocks
    rw [List.flatMap_map]
    have heq : (fun a => fieldsOf (Block.section none a)) = (fun a : List TextObj => a) := by
      funext fields
      rfl
    rw [heq]
    have hid : ∀ (l : List (List TextObj)), (l.flatMap fun a => a) = l.flatten := by
      intro l
      induction l with
      | nil => rfl
      | cons x xs ih => simp [List.flatMap_cons, List.flatten_cons, ih]
    rw [hid]
    exact chunkBy_join (by norm_num) _
  · exact List.perm_insertionSort _ _
  · exact List.sorted_insertionSort _ _
  · exact (List.perm_insertionSort _ _).nodup_iff.mpr h
  · intro b hb
    unfold Part0.labelBlocks at hb
    simp only [List.mem_map] at hb
    rcases hb with ⟨fields, hf, hbe⟩
    subst hbe
    exact chunkBy_le (by norm_num) _ fields hf

/-- Witness for C4 at a concrete two-label map. -/
theorem c4_label_blocks_witness :
    (Part0.labelBlocks [("b", "2"), ("a", "1")]).flatMap fieldsOf =
      (Part0.labelsNames [("b", "2"), ("a", "1")]).map
        (Part0.labelField [("b", "2"), ("a", "1")]) :=
  (c4_label_blocks [("b", "2"), ("a", "1")] (by decide)).1

theorem loopDown_stop (v : Rat) (pre : String) (ps : List String) (h : |v| < 1000) :
    loopDown v pre ps = (v, pre) := by
  cases ps <;> simp [loopDown, h]

theorem loopUp_stop (v : Rat) (pre : String) (ps : List String) (h : 1 ≤ |v|) :
    loopUp v pre ps = (v, pre) := by
  cases ps <;> simp [loopUp, h]

theorem loopDown_spec : ∀ (j : Nat) (ps : List String) (pre : String) (v : Rat),
    j < ps.length → (1000 : Rat) ^ (j + 1) ≤ |v| → |v| < (1000 : Rat) ^ (j + 2) →
    loopDown v pre ps = (v / (1000 : Rat) ^ (j + 1), ps.getD j "") := by
  intro j
  induction j with
  | zero =>
    intro ps pre v hlen h1 h2
    cases ps with
    | nil => simp at hlen
    | cons p ps2 =>
      have hge : ¬ |v| < 1000 := by
        push_neg
        calc (1000 : Rat) = 1000 ^ (0 + 1) := by norm_num
        _ ≤ |v| := h1
      rw [loopDown, if_neg hge]
      have habs : |v / 1000| = |v| / 1000 := by
        rw [abs_div]
        norm_num
      have hlt : |v / 1000| < 1000 := by
        rw [habs, div_lt_iff₀ (by norm_num : (0 : Rat) < 1000)]
        calc |v| < (1000 : Rat) ^ (0 + 2) := h2
        _ = 1000 * 1000 := by norm_num
      rw [loopDown_stop _ _ _ hlt]
      simp
  | succ j ih =>
    intro ps pre v hlen h1 h2
    cases ps with
    | nil => simp at hlen
    | cons p ps2 =>
      have hpow1 : (1000 : Rat) ≤ 1000 ^ (j + 2) := by
        calc (1000 : Rat) = 1000 ^ 1 := by norm_num
        _ ≤ 1000 ^ (j + 2) := by
          apply pow_le_pow_right₀ (by norm_num : (1 : Rat) ≤ 1000)
          omega
      have hge : ¬ |v| < 1000 := by
        push_neg
        exact le_trans hpow1 h1
      rw [loopDown, if_neg hge]
      have habs : |v / 1000| = |v| / 1000 := by
        rw [abs_div]
        norm_num
      have h1d : (1000 : Rat) ^ (j + 1) ≤ |v / 1000| := by
        rw [habs, le_div_iff₀ (by norm_num : (0 : Rat) < 1000)]
        calc (1000 : Rat) ^ (j + 1) * 1000 = 1000 ^ (j + 2) := by ring
        _ ≤ |v| := h1
      have h2d : |v / 1000| < (1000 : Rat) ^ (j + 2) := by
        rw [habs, div_lt_iff₀ (by norm_num : (0 : Rat) < 1000)]
        calc |v| < (1000 : Rat) ^ (j + 3) := h2
        _ = 1000 ^ (j + 2) * 1000 := by ring
      rw [ih ps2 p (v / 1000) (by simpa using hlen) h1d h2d]
      rw [Prod.mk.injEq]
      refine ⟨?_, by simp⟩
      rw [div_div]
      congr 1
      ring

theorem loopUp_spec : ∀ (j : Nat) (ps : List String) (pre : String) (v : Rat),
    j < ps.length → 1 ≤ (1000 : Rat) ^ (j + 1) * |v| → (1000 : Rat) ^ j * |v| < 1 →
    loopUp v pre ps = (v * (1000 : Rat) ^ (j + 1), ps.getD j "") := by
  intro j
  induction j with
  | zero =>
    intro ps pre v hlen h1 h2
    cases ps with
    | nil => simp at hlen
    | cons p ps2 =>
      have hlt : ¬ 1 ≤ |v| := by
        push_neg
        calc |v| = (1000 : Rat) ^ 0 * |v| := by norm_num
        _ < 1 := h2
      rw [loopUp, if_neg hlt]
      have habs : |v * 1000| = |v| * 1000 := by
        rw [abs_mul]
        norm_num
      have hge : 1 ≤ |v * 1000| := by
        rw [habs]
        calc (1 : Rat) ≤ 1000 ^ (0 + 1) * |v| := h1
        _ = |v| * 1000 := by ring
      rw [loopUp_stop _ _ _ hge]
      simp
  | succ j ih =>
    intro ps pre v hlen h1 h2
    cases ps with
    | nil => simp at hlen
    | cons p ps2 =>
      have hpow1 : (1 : Rat) ≤ 1000 ^ (j + 1) := one_le_pow₀ (by norm_num)
      have hlt : ¬ 1 ≤ |v| := by
        push_neg
        have : |v| ≤ (1000 : Rat) ^ (j + 1) * |v| :=
          le_mul_of_one_le_left (abs_nonneg v) hpow1
        exact lt_of_le_of_lt this h2
      rw [loopUp, if_neg hlt]
      have habs : |v * 1000| = |v| * 1000 := by
        rw [abs_mul]
        norm_num
      have h1u : 1 ≤ (1000 : Rat) ^ (j + 1) * |v * 1000| := by
        rw [habs]
        calc (1 : Rat) ≤ 1000 ^ (j + 2) * |v| := h1
        _ = 1000 ^ (j + 1) * (|v| * 1000) := by ring
      have h2u : (1000 : Rat) ^ j * |v * 1000| < 1 := by
        rw [habs]
        calc (1000 : Rat) ^ j * (|v| * 1000) = 1000 ^ (j + 1) * |v| := by ring
        _ < 1 := h2
      rw [ih ps2 p (v * 1000) (by simpa using hlen) h1u h2u]
      rw [Prod.mk.injEq]
      refine ⟨?_, by simp⟩
      rw [mul_assoc]
      congr 1
      ring

/-- C6 as stated is false of the code: the sub-unit prefix list of
`main.go` line 293 is `m, u, n, p, f, a, z, y` with the ASCII letter `u`,
not the micro sign `µ` the claim lists.  At `0.00000762939453125`
(exactly `2 ^ (-17)`, so the IEEE-754 evaluation is exact) the program
yields `7.629u`, not `7.629µ`. -/
theorem c6_micro_prefix_counterexample :
    humanize ("0.00000762939453125") = some ("7.629u") ∧
      ("7.629u" : String) ≠ "7.629µ" := by
  refine ⟨by with_unfolding_all decide, by decide⟩

/-- C6 amended: `humanize` formats with 4 significant digits and an SI
prefix — `0 ↦ 0`, `1500 ↦ 1.5k`, `0.0025 ↦ 2.5m`, `NaN ↦ NaN`; a value
with magnitude in `[1, 1000)` gets no prefix; magnitude in
`[1000^(k+1), 1000^(k+2))` is divided by `1000^(k+1)` and suffixed with
the `k`-th of `k, M, G, T, P, E, Z, Y`; magnitude in
`[1000^(-k-1), 1000^(-k))` is multiplied by `1000^(k+1)` and suffixed
with the `k`-th of `m, u, n, p, f, a, z, y` (ASCII `u`, not `µ`). -/
theorem c6_humanize_amended :
    humanize ("0") = some ("0") ∧
      humanize ("1500") = some ("1.5k") ∧
      humanize ("0.0025") = some ("2.5m") ∧
      humanize ("NaN") = some ("NaN") ∧
      (∀ q : Rat, q ≠ 0 → 1 ≤ |q| → |q| < 1000 →
        humanizeF (.num q) = fmt4g (.num q)) ∧
      (∀ (q : Rat) (k : Nat), k < 8 →
        (1000 : Rat) ^ (k + 1) ≤ |q| → |q| < (1000 : Rat) ^ (k + 2) →
        humanizeF (.num q) = fmt4g (.num (q / 1000 ^ (k + 1))) ++ downPrefixes.getD k "") ∧
      (∀ (q : Rat) (k : Nat), k < 8 → q ≠ 0 →
        1 ≤ (1000 : Rat) ^ (k + 1) * |q| → (1000 : Rat) ^ k * |q| < 1 →
        humanizeF (.num q) = fmt4g (.num (q * 1000 ^ (k + 1))) ++ upPrefixes.getD k "") := by
  refine ⟨by with_unfolding_all decide, by with_unfolding_all decide,
    by with_unfolding_all decide, by with_unfolding_all decide, ?_, ?_, ?_⟩
  · intro q hq0 h1 h2
    simp only [humanizeF]
    rw [if_neg hq0, if_pos h1, loopDown_stop q "" downPrefixes h2]
    simp
  · intro q k hk h1 h2
    have hq0 : q ≠ 0 := by
      intro h
      rw [h] at h1
      simp only [abs_zero] at h1
      have : (0 : Rat) < 1000 ^ (k + 1) := by positivity
      linarith
    have hge1 : (1 : Rat) ≤ |q| := by
      calc (1 : Rat) ≤ 1000 ^ (k + 1) := one_le_pow₀ (by norm_num)
      _ ≤ |q| := h1
    simp only [humanizeF]
    rw [if_neg hq0, if_pos hge1]
    rw [loopDown_spec k downPrefixes "" q (by simp [downPrefixes]; omega) h1 h2]
  · intro q k hk hq0 h1 h2
    have hlt1 : ¬ 1 ≤ |q| := by
      push_neg
      have hle : |q| ≤ (1000 : Rat) ^ k * |q| :=
        le_mul_of_one_le_left (abs_nonneg q) (one_le_pow₀ (by norm_num))
      exact lt_of_le_of_lt hle h2
    simp only [humanizeF]
    rw [if_neg hq0, if_neg hlt1]
    rw [loopUp_spec k upPrefixes "" q (by simp [upPrefixes]; omega) h1 h2]

/-- Witness for C6-amended: one megagram-range value through the scale-
down conjunct. -/
theorem c6_humanize_amended_witness :
    humanizeF (.num 1000000) = fmt4g (.num 1) ++ "M" := by
  have h := c6_humanize_amended.2.2.2.2.2.1 (1000000 : Rat) 1 (by omega)
    (by norm_num) (by norm_num)
  rw [h]
  norm_num
  rfl

theorem splitGo_ne_nil (sep : List Char) : ∀ (fuel : Nat) (l : List Char),
    splitGo sep fuel l ≠ [] := by
  intro fuel l
  cases fuel with
  | zero => simp [splitGo]
  | succ n =>
    cases l with
    | nil => simp [splitGo]
    | cons c rest =>
      simp only [splitGo]
      by_cases hp : sep.isPrefixOf (c :: rest)
      · simp [hp]
      · simp only [hp, if_false, Bool.false_eq_true]
        rcases splitGo sep n rest with _ | ⟨h2, t2⟩ <;> simp

theorem splitGo_length (sep : List Char) : ∀ (fuel : Nat) (l : List Char),
    (splitGo sep fuel l).length = occGo sep fuel l + 1 := by
  intro fuel
  induction fuel with
  | zero => intro l; simp [splitGo, occGo]
  | succ n ih =>
    intro l
    cases l with
    | nil => simp [splitGo, occGo]
    | cons c rest =>
      simp only [splitGo, occGo]
      by_cases hp : sep.isPrefixOf (c :: rest)
      · simp only [hp, if_true, List.length_cons, ih]
        omega
      · simp only [hp, if_false, Bool.false_eq_true]
        rcases hsp : splitGo sep n rest with _ | ⟨h2, t2⟩
        · exact absurd hsp (splitGo_ne_nil sep n rest)
        · have := ih rest
          rw [hsp] at this
          simp only [List.length_cons] at this ⊢
          omega

theorem splitGo_occ_zero (sep : List Char) : ∀ (fuel : Nat) (l : List Char),
    l.length ≤ fuel → occGo sep fuel l = 0 → splitGo sep fuel l = [l] := by
  intro fuel
  induction fuel with
  | zero =>
    intro l hl _
    have : l = [] := List.length_eq_zero.mp (Nat.le_zero.mp hl)
    subst this
    rfl
  | succ n ih =>
    intro l hl hocc
    cases l with
    | nil => rfl
    | cons c rest =>
      simp only [splitGo, occGo] at hocc ⊢
      by_cases hp : sep.isPrefixOf (c :: rest)
      · rw [if_pos hp] at hocc
        omega
      · rw [if_neg hp] at hocc ⊢
        rw [ih rest (by simpa using hl) hocc]

theorem splitGo_occ_one (sep : List Char) (hsep : sep ≠ []) :
    ∀ (fuel : Nat) (l : List Char), l.length ≤ fuel → occGo sep fuel l = 1 →
      splitGo sep fuel l = [beforeFirst sep l, (afterFirst sep l).getD []] := by
  intro fuel
  induction fuel with
  | zero =>
    intro l hl hocc
    have : l = [] := List.length_eq_zero.mp (Nat.le_zero.mp hl)
    subst this
    simp [occGo] at hocc
  | succ n ih =>
    intro l hl hocc
    cases l with
    | nil => simp [occGo] at hocc
    | cons c rest =>
      simp only [splitGo, occGo] at hocc ⊢
      by_cases hp : sep.isPrefixOf (c :: rest)
      · rw [if_pos hp] at hocc ⊢
        have hocc0 : occGo sep n ((c :: rest).drop sep.length) = 0 := by omega
        have hlen : ((c :: rest).drop sep.length).length ≤ n := by
          rw [List.length_drop]
          have : 1 ≤ sep.length := by
            cases sep with
            | nil => exact absurd rfl hsep
            | cons a t => simp
          simp only [List.length_cons] at hl ⊢
          omega
        rw [splitGo_occ_zero sep n _ hlen hocc0]
        have hb : beforeFirst sep (c :: rest) = [] := by
          simp only [beforeFirst]
          rw [if_pos hp]
        have ha : afterFirst sep (c :: rest) = some (List.drop sep.length (c :: rest)) := by
          simp only [afterFirst]
          rw [if_pos hp]
        rw [hb, ha]
        rfl
      · rw [if_neg hp] at hocc ⊢
        have hb : beforeFirst sep (c :: rest) = c :: beforeFirst sep rest := by
          simp only [beforeFirst]
          rw [if_neg hp]
        have ha : afterFirst sep (c :: rest) = afterFirst sep rest := by
          simp only [afterFirst]
          rw [if_neg hp]
        rw [hb, ha, ih rest (by simpa using hl) hocc]

theorem splitGo_head (sep : List Char) : ∀ (fuel : Nat) (l : List Char),
    l.length ≤ fuel → ∃ t, splitGo sep fuel l = beforeFirst sep l :: t := by
  intro fuel
  induction fuel with
  | zero =>
    intro l hl
    have : l = [] := List.length_eq_zero.mp (Nat.le_zero.mp hl)
    subst this
    exact ⟨[], rfl⟩
  | succ n ih =>
    intro l hl
    cases l with
    | nil => exact ⟨[], rfl⟩
    | cons c rest =>
      simp only [splitGo]
      by_cases hp : sep.isPrefixOf (c :: rest)
      · rw [if_pos hp]
        have hb : beforeFirst sep (c :: rest) = [] := by
          simp only [beforeFirst]
          rw [if_pos hp]
        rw [hb]
        exact ⟨_, rfl⟩
      · rw [if_neg hp]
        have hb : beforeFirst sep (c :: rest) = c :: beforeFirst sep rest := by
          simp only [beforeFirst]
          rw [if_neg hp]
        rw [hb]
        rcases ih rest (by simpa using hl) with ⟨t, ht⟩
        rw [ht]
        exact ⟨t, rfl⟩

theorem beforeFirst_single (c0 : Char) (l : List Char) :
    beforeFirst [c0] l = l.takeWhile (fun c => c != c0) := by
  induction l with
  | nil => rfl
  | cons c rest ih =>
    unfold beforeFirst
    by_cases hc : c0 = c
    · subst hc
      have hp : [c0].isPrefixOf (c0 :: rest) := by simp [List.isPrefixOf]
      rw [if_pos hp]
      simp [List.takeWhile]
    · have hp : ¬ [c0].isPrefixOf (c :: rest) := by
        simp [List.isPrefixOf]
        exact hc
      rw [if_neg hp]
      have : (c != c0) = true := by
        simp
        exact fun h => hc h.symm
      simp only [List.takeWhile, this]
      rw [ih]

/-- C7 is false as stated: a string containing `value=` twice is split by
`strings.Split` into three parts, so `extractValue` returns the input
unchanged instead of the humanized token after the first occurrence
(which the claim predicts would be `humanize "1" = "1"`). -/
theorem c7_extract_value_counterexample :
    occurrences ("value=1 value=2") ("value=") = 2 ∧
      (afterFirst ("value=").data ("value=1 value=2").data).isSome = true ∧
      humanize ("1") = some ("1") ∧
      extractValue ("value=1 value=2") = "value=1 value=2" ∧
      ("value=1 value=2" : String) ≠ "1" := by
  refine ⟨by decide, by decide, by with_unfolding_all decide,
    by with_unfolding_all decide, by decide⟩

/-- C7 amended: when the input contains `value=` exactly once,
`extractValue` humanizes the token between the first occurrence and the
next space, falling back to the raw token when humanizing fails; when the
pattern is absent or occurs more than once, the input is returned
unchanged. -/
theorem c7_extract_value_amended (s : String) :
    (occurrences s ("value=") = 1 →
      extractValue s =
        (let tok := String.mk
            (((afterFirst ("value=").data s.data).getD []).takeWhile (fun c => c != ' '));
         match humanize tok with
         | some str => str
         | none => tok)) ∧
      (occurrences s ("value=") ≠ 1 → extractValue s = s) := by
  constructor
  · intro h1
    unfold extractValue goSplit
    unfold occurrences at h1
    rw [splitGo_occ_one ("value=").data (by decide) s.data.length s.data (le_refl _) h1]
    have hlem := splitGo_head [' ']
      ((afterFirst ("value=").data s.data).getD []).length
      ((afterFirst ("value=").data s.data).getD []) (le_refl _)
    rcases hlem with ⟨t, ht⟩
    dsimp only
    rw [ht]
    dsimp only
    rw [beforeFirst_single]
  · intro h2
    unfold extractValue goSplit
    unfold occurrences at h2
    have hlen := splitGo_length ("value=").data s.data.length s.data
    rcases hsp : splitGo ("value=").data s.data.length s.data with _ | ⟨a, _ | ⟨b, _ | ⟨c, rest⟩⟩⟩
    · rfl
    · rfl
    · rw [hsp] at hlen
      exfalso
      apply h2
      have hdata : ("value=").data = ['v', 'a', 'l', 'u', 'e', '='] := rfl
      rw [hdata]
      simp only [List.length_cons, List.length_nil] at hlen
      omega
    · rfl

/-- Witness for C7-amended at the spec's example input. -/
theorem c7_extract_value_amended_witness :
    extractValue ("[ var=B labels=x value=42 ]") = "42" := by
  have h := (c7_extract_value_amended ("[ var=B labels=x value=42 ]")).1 (by decide)
  rw [h]
  with_unfolding_all decide
